import Mathlib

/-!
Shallow embedding of the hospital triage system implemented in `baseline.py`
and `optimized.py`, together with proofs about the embedded operations.

Python objects are embedded with value semantics: linked structures become
lists or inductive trees, in-place mutation becomes explicit state passing,
printed messages that carry error signals are returned explicitly, and the
standard-library binary heap (`heapq`) is embedded by its multiset semantics
(push adds an entry, pop removes a least entry); all heap keys reachable in
this program carry a distinct insertion counter, so minimum extraction is
unambiguous and the internal array layout of the heap is unobservable.
-/

/-- The `Patient` dataclass of `baseline.py`: identifier, display name,
severity (1 low to 5 critical) and arrival sequence number. -/
structure Patient where
  id : Int
  name : String
  severity : Int
  arrival_time : Int
  deriving DecidableEq, Repr

/-- `print_error` of `baseline.py`: the error line printed to the console. -/
def print_error (msg : String) : String := "[ERROR] " ++ msg

/-- `FCFSTriageSystem` of `baseline.py`: a doubly linked queue embedded as the
front-to-rear list of patients, with the tracked `_size` counter and the
optional `_capacity` bound. -/
structure FCFSTriageSystem where
  queue : List Patient
  size : Int
  capacity : Option Int
  deriving DecidableEq, Repr

/-- `FCFSTriageSystem.__init__`: empty queue, size 0, stored capacity
(`None` by default); the constructor performs no validation. -/
def FCFSTriageSystem.init (max_capacity : Option Int) : FCFSTriageSystem :=
  { queue := [], size := 0, capacity := max_capacity }

/-- `FCFSTriageSystem.is_full`: `capacity is not None and size >= capacity`. -/
def FCFSTriageSystem.is_full (s : FCFSTriageSystem) : Bool :=
  match s.capacity with
  | none => false
  | some c => decide (s.size ≥ c)

/-- `FCFSTriageSystem.is_empty`: `size == 0`. -/
def FCFSTriageSystem.is_empty (s : FCFSTriageSystem) : Bool :=
  decide (s.size = 0)

/-- `FCFSTriageSystem.arrive`: append at the rear unless full; the Boolean is
the Python return value. -/
def FCFSTriageSystem.arrive (s : FCFSTriageSystem) (patient : Patient) :
    Bool × FCFSTriageSystem :=
  if s.is_full then (false, s)
  else (true, { s with queue := s.queue ++ [patient], size := s.size + 1 })

/-- `FCFSTriageSystem.serve_next`: remove and return the front patient. -/
def FCFSTriageSystem.serve_next (s : FCFSTriageSystem) :
    Option Patient × FCFSTriageSystem :=
  match s.queue with
  | [] => (none, s)
  | p :: rest => (some p, { s with queue := rest, size := s.size - 1 })

/-- `FCFSTriageSystem.traverse_forward`: the queue front to rear. -/
def FCFSTriageSystem.traverse_forward (s : FCFSTriageSystem) : List Patient :=
  s.queue

/-- `FCFSTriageSystem.traverse_backward`: the queue rear to front. -/
def FCFSTriageSystem.traverse_backward (s : FCFSTriageSystem) : List Patient :=
  s.queue.reverse

/-- `FCFSTriageSystem.get_current_size`. -/
def FCFSTriageSystem.get_current_size (s : FCFSTriageSystem) : Int := s.size

/-- `FCFSTriageSystem.get_max_size`. -/
def FCFSTriageSystem.get_max_size (s : FCFSTriageSystem) : Option Int :=
  s.capacity

/-- `ServedHistoryStack` of `optimized.py`: a singly linked stack embedded as
the top-first list of records, with the tracked `_size` and `_capacity`. -/
structure ServedHistoryStack where
  stack : List String
  size : Int
  capacity : Int
  deriving DecidableEq, Repr

/-- `ServedHistoryStack.__init__`: empty stack with the given capacity; the
constructor performs no validation of `max_capacity`. -/
def ServedHistoryStack.init (max_capacity : Int) : ServedHistoryStack :=
  { stack := [], size := 0, capacity := max_capacity }

/-- `ServedHistoryStack.is_full`: `size >= capacity`. -/
def ServedHistoryStack.is_full (s : ServedHistoryStack) : Bool :=
  decide (s.size ≥ s.capacity)

/-- `ServedHistoryStack.is_empty`: `head is None`. -/
def ServedHistoryStack.is_empty (s : ServedHistoryStack) : Bool :=
  decide (s.stack = [])

/-- `ServedHistoryStack.push`: the Python method returns `None`; a rejected
push is signalled only by a printed error line, returned here as the second
component. -/
def ServedHistoryStack.push (s : ServedHistoryStack) (value : String) :
    ServedHistoryStack × List String :=
  if s.is_full then
    (s, [print_error "History stack is full! Cannot push new record."])
  else
    ({ s with stack := value :: s.stack, size := s.size + 1 }, [])

/-- `ServedHistoryStack.pop`: returned value, new state, printed errors. -/
def ServedHistoryStack.pop (s : ServedHistoryStack) :
    Option String × ServedHistoryStack × List String :=
  match s.stack with
  | [] => (none, s, [print_error "History stack is empty! Cannot pop."])
  | v :: rest => (some v, { s with stack := rest, size := s.size - 1 }, [])

/-- `ServedHistoryStack.peek`: returned value and printed errors. -/
def ServedHistoryStack.peek (s : ServedHistoryStack) :
    Option String × List String :=
  match s.stack with
  | [] => (none, [print_error "History stack is empty!"])
  | v :: _ => (some v, [])

/-- `ServedHistoryStack.get_current_size`. -/
def ServedHistoryStack.get_current_size (s : ServedHistoryStack) : Int :=
  s.size

/-- `ServedHistoryStack.get_max_size`. -/
def ServedHistoryStack.get_max_size (s : ServedHistoryStack) : Int :=
  s.capacity

/-- `DoctorRotation` of `optimized.py`: the circular singly linked list of
doctors is embedded as the fixed list of names plus the cursor index of the
`_current` node; following a `next_ptr` is advancing the index modulo the
length. -/
structure DoctorRotation where
  doctor_names : List String
  current : Nat
  deriving DecidableEq, Repr

/-- `DoctorRotation.__init__`: raises `ValueError` on an empty list,
otherwise builds the cycle and puts the cursor on the first node. -/
def DoctorRotation.init (doctor_names : List String) :
    Except String DoctorRotation :=
  if doctor_names = [] then .error "At least one doctor is required."
  else .ok { doctor_names := doctor_names, current := 0 }

/-- `DoctorRotation.next_doctor`: return the current node's name and advance
the cursor along the cycle. -/
def DoctorRotation.next_doctor (r : DoctorRotation) :
    String × DoctorRotation :=
  (r.doctor_names.getD r.current "",
   { r with current := (r.current + 1) % r.doctor_names.length })

/-- Run `next_doctor` a given number of times, collecting the outputs. -/
def DoctorRotation.run (r : DoctorRotation) : Nat → List String × DoctorRotation
  | 0 => ([], r)
  | k + 1 =>
    (r.next_doctor.1 :: (r.next_doctor.2.run k).1, (r.next_doctor.2.run k).2)

/-- The node tree underlying `PatientBST` of `optimized.py`. -/
inductive PTree where
  | leaf
  | node (left : PTree) (patient : Patient) (right : PTree)
  deriving DecidableEq, Repr

/-- `PatientBST._insert`: keyed by `patient.id`; strictly smaller keys go
left, all others go right. -/
def PTree.insert : PTree → Patient → PTree
  | .leaf, p => .node .leaf p .leaf
  | .node l q r, p =>
    if p.id < q.id then .node (PTree.insert l p) q r
    else .node l q (PTree.insert r p)

/-- The `while successor.left is not None` walk of `PatientBST._delete`:
the leftmost patient of the tree, with a default for the empty tree. -/
def PTree.minFrom : PTree → Patient → Patient
  | .leaf, d => d
  | .node l p _, _ => PTree.minFrom l p

/-- `PatientBST._delete`: standard unbalanced BST deletion; a node with two
children takes the value of its in-order successor, which is then deleted
from the right subtree. -/
def PTree.delete : PTree → Int → PTree
  | .leaf, _ => .leaf
  | .node l q r, pid =>
    if pid < q.id then .node (PTree.delete l pid) q r
    else if q.id < pid then .node l q (PTree.delete r pid)
    else
      match l, r with
      | .leaf, .leaf => .leaf
      | .leaf, _ => r
      | _, .leaf => l
      | _, _ =>
        .node l (r.minFrom q) (PTree.delete r (r.minFrom q).id)

/-- `PatientBST._update_severity`: find the node with the given identifier
and overwrite its severity; the Boolean reports whether it was found. -/
def PTree.update_severity : PTree → Int → Int → Bool × PTree
  | .leaf, _, _ => (false, .leaf)
  | .node l q r, pid, ns =>
    if q.id = pid then (true, .node l { q with severity := ns } r)
    else if pid < q.id then
      ((PTree.update_severity l pid ns).1,
       .node (PTree.update_severity l pid ns).2 q r)
    else
      ((PTree.update_severity r pid ns).1,
       .node l q (PTree.update_severity r pid ns).2)

/-- `PatientBST._inorder`. -/
def PTree.inorder : PTree → List Patient
  | .leaf => []
  | .node l p r => PTree.inorder l ++ p :: PTree.inorder r

/-- `PatientBST`: a root pointer. -/
structure PatientBST where
  root : PTree
  deriving DecidableEq, Repr

/-- `PatientBST.__init__`. -/
def PatientBST.init : PatientBST := ⟨.leaf⟩

/-- `PatientBST.insert`. -/
def PatientBST.insert (t : PatientBST) (p : Patient) : PatientBST :=
  ⟨t.root.insert p⟩

/-- `PatientBST.delete_by_id`. -/
def PatientBST.delete_by_id (t : PatientBST) (pid : Int) : PatientBST :=
  ⟨t.root.delete pid⟩

/-- `PatientBST.update_severity`. -/
def PatientBST.update_severity (t : PatientBST) (pid ns : Int) :
    Bool × PatientBST :=
  ((t.root.update_severity pid ns).1, ⟨(t.root.update_severity pid ns).2⟩)

/-- `PatientBST.inorder`. -/
def PatientBST.inorder (t : PatientBST) : List Patient := t.root.inorder

/-- `PatientBST.is_empty`. -/
def PatientBST.is_empty (t : PatientBST) : Bool :=
  decide (t.root = PTree.leaf)

/-- One entry of the `PriorityTriageSystem` heap: the tuple
`((-severity, arrival_time), counter, patient)` pushed by `arrive`. -/
structure HeapEntry where
  prio : Int × Int
  counter : Int
  patient : Patient
  deriving DecidableEq, Repr

/-- The full comparison key of a heap entry, in tuple comparison order. -/
def entryKey (e : HeapEntry) : Int × Int × Int :=
  (e.prio.1, e.prio.2, e.counter)

/-- Lexicographic order of the tuple keys, as Python compares the heap
entries (the patient component is never reached because counters are
distinct). -/
def lex3 (x y : Int × Int × Int) : Prop :=
  x.1 < y.1 ∨ (x.1 = y.1 ∧ (x.2.1 < y.2.1 ∨ (x.2.1 = y.2.1 ∧ x.2.2 ≤ y.2.2)))

instance (x y : Int × Int × Int) : Decidable (lex3 x y) := by
  unfold lex3; exact inferInstance

/-- Boolean entry comparison used by the embedded heap operations. -/
def keyLe (a b : HeapEntry) : Bool := decide (lex3 (entryKey a) (entryKey b))

/-- `heapq.heappop` on the embedded heap: remove a least entry (the leftmost
least entry; ties in the full key never occur on reachable heaps because
insertion counters are distinct). -/
def popMin : List HeapEntry → Option (HeapEntry × List HeapEntry)
  | [] => none
  | e :: es =>
    match popMin es with
    | none => some (e, [])
    | some (m, rest) =>
      if keyLe e m then some (e, es) else some (m, e :: rest)

/-- `PriorityTriageSystem` of `optimized.py`: the heap list and the
monotone insertion counter. -/
structure PriorityTriageSystem where
  heap : List HeapEntry
  counter : Int
  deriving DecidableEq, Repr

/-- `PriorityTriageSystem.__init__`. -/
def PriorityTriageSystem.init : PriorityTriageSystem := ⟨[], 0⟩

/-- `PriorityTriageSystem._priority_for`: `(-severity, arrival_time)`. -/
def priority_for (p : Patient) : Int × Int := (-p.severity, p.arrival_time)

/-- `PriorityTriageSystem.arrive`: increment the counter and push the entry
`((-severity, arrival), counter, patient)` onto the heap. -/
def PriorityTriageSystem.arrive (s : PriorityTriageSystem) (p : Patient) :
    PriorityTriageSystem :=
  { heap := s.heap ++ [⟨priority_for p, s.counter + 1, p⟩],
    counter := s.counter + 1 }

/-- `PriorityTriageSystem.serve_next`: pop the least-keyed entry and return
its patient; `none` on an empty heap. -/
def PriorityTriageSystem.serve_next (s : PriorityTriageSystem) :
    Option Patient × PriorityTriageSystem :=
  match popMin s.heap with
  | none => (none, s)
  | some (e, rest) => (some e.patient, { s with heap := rest })

/-- The linear scan of `PriorityTriageSystem.update_severity`: rewrite the
first entry whose patient has the given identifier, recomputing its priority
and keeping its counter.  The subsequent `heapify` only rearranges the heap
array and is invisible to the multiset semantics of the embedded heap. -/
def updateEntry (pid ns : Int) : List HeapEntry → Bool × List HeapEntry
  | [] => (false, [])
  | e :: es =>
    if e.patient.id = pid then
      (true,
       ⟨priority_for { e.patient with severity := ns }, e.counter,
        { e.patient with severity := ns }⟩ :: es)
    else
      ((updateEntry pid ns es).1, e :: (updateEntry pid ns es).2)

/-- `PriorityTriageSystem.update_severity`. -/
def PriorityTriageSystem.update_severity (s : PriorityTriageSystem)
    (pid ns : Int) : Bool × PriorityTriageSystem :=
  ((updateEntry pid ns s.heap).1, { s with heap := (updateEntry pid ns s.heap).2 })

/-- `PriorityTriageSystem.is_empty`. -/
def PriorityTriageSystem.is_empty (s : PriorityTriageSystem) : Bool :=
  decide (s.heap = [])

/-- Drain the heap by repeated `heappop`, with explicit fuel; the fuel is
always instantiated with the heap length, which bounds the number of pops. -/
def popAllGo : List HeapEntry → Nat → List HeapEntry
  | _, 0 => []
  | l, fuel + 1 =>
    match popMin l with
    | none => []
    | some (e, rest) => e :: popAllGo rest fuel

/-- The full drain order of a heap: the sequence of entries that repeated
`heappop` returns until the heap is empty. -/
def popAll (l : List HeapEntry) : List HeapEntry := popAllGo l l.length

/-- The patients returned by repeatedly calling `serve_next` until the
priority structure reports empty. -/
def PriorityTriageSystem.serveAll (s : PriorityTriageSystem) : List Patient :=
  (popAll s.heap).map (·.patient)

/-- The state the interactive menu of `optimized.py` maintains: doctor
rotation, history stack, BST, arrival counter and priority queue. -/
structure CoordState where
  rotation : DoctorRotation
  history : ServedHistoryStack
  bst : PatientBST
  arrival_counter : Int
  pq : PriorityTriageSystem
  deriving DecidableEq, Repr

/-- The state set up before the menu loop: a doctor rotation, an empty
history stack of the requested capacity, an empty BST, arrival counter 0 and
an empty priority queue. -/
def initCoord (rotation : DoctorRotation) (history_size : Int) : CoordState :=
  { rotation := rotation
    history := ServedHistoryStack.init history_size
    bst := PatientBST.init
    arrival_counter := 0
    pq := PriorityTriageSystem.init }

/-- One menu interaction of `optimized.py` that mutates the core state:
option 1 (add patient), option 2 (update severity) or option 3 (serve). -/
inductive Op where
  | add (name : String) (pid : Int) (severity : Int)
  | update (pid : Int) (new_sev : Int)
  | serve
  deriving DecidableEq, Repr

/-- The service record string formatted by menu option 3. -/
def serviceRecord (p : Patient) (doctor : String) : String :=
  "ID=" ++ toString p.id ++ " | " ++ p.name ++ " | Severity=" ++
    toString p.severity ++ "/5 | Dr. " ++ doctor

/-- The state transition of one menu interaction, exactly as the three
mutating branches of the menu loop perform it. -/
def runOp (st : CoordState) : Op → CoordState
  | .add name pid severity =>
    let ac := st.arrival_counter + 1
    let p : Patient :=
      { id := pid, name := name, severity := severity, arrival_time := ac }
    { st with
        arrival_counter := ac
        pq := st.pq.arrive p
        bst := st.bst.insert p }
  | .update pid ns =>
    let (_, pq') := st.pq.update_severity pid ns
    let (_, bst') := st.bst.update_severity pid ns
    { st with pq := pq', bst := bst' }
  | .serve =>
    match st.pq.serve_next with
    | (none, _) => st
    | (some p, pq') =>
      let (doctor, rot') := st.rotation.next_doctor
      let (hist', _) := st.history.push (serviceRecord p doctor)
      { st with
          pq := pq'
          rotation := rot'
          history := hist'
          bst := st.bst.delete_by_id p.id }

/-- A whole menu session over the mutating options. -/
def runOps (st : CoordState) (ops : List Op) : CoordState :=
  ops.foldl runOp st

/-- Whether menu option 2 prints the success message: `updated_pq or
updated_bst`. -/
def updateReportsSuccess (st : CoordState) (pid ns : Int) : Bool :=
  (st.pq.update_severity pid ns).1 || (st.bst.update_severity pid ns).1

/-- Python's `sorted(..., key=lambda x: x.arrival_time)` used by the compare
branch: a stable sort by arrival sequence. -/
def sortByArrival (l : List Patient) : List Patient :=
  l.mergeSort (fun a b => decide (a.arrival_time ≤ b.arrival_time))

/-- Menu option 4 of `optimized.py`: snapshot the waiting patients, build a
transient unbounded `FCFSTriageSystem` ordered by arrival, and drain a copy
of the heap for the priority-order rendering; the coordinator state is
returned unchanged because every rendering works on copies. -/
def compareBranch (st : CoordState) :
    Option (List Patient × List Patient) × CoordState :=
  let temp_patients := st.pq.heap.map (·.patient)
  if temp_patients = [] then (none, st)
  else
    let fcfs := (sortByArrival temp_patients).foldl
      (fun f p => (f.arrive p).2) (FCFSTriageSystem.init none)
    let heap_copy := st.pq.heap
    (some (fcfs.traverse_forward, (popAll heap_copy).map (·.patient)), st)

/-- The identifiers currently in the priority heap. -/
def heapIds (st : CoordState) : List Int :=
  st.pq.heap.map (fun e => e.patient.id)

/-- The patients currently in the priority heap. -/
def heapPatients (st : CoordState) : List Patient :=
  st.pq.heap.map (·.patient)

/-- The identifiers currently in the BST. -/
def bstIds (st : CoordState) : List Int :=
  st.bst.inorder.map (·.id)

/-- A heap entry as `arrive` creates it: the priority component is the
priority key of its patient. -/
def EntryWf (e : HeapEntry) : Prop := e.prio = priority_for e.patient

/-- The binary-search-tree shape invariant maintained by `PatientBST` under
unique identifiers: every identifier in a left subtree is strictly below the
node's, every identifier in a right subtree strictly above. -/
def PTree.Wf : PTree → Prop
  | .leaf => True
  | .node l q r =>
    (∀ x ∈ l.inorder, x.id < q.id) ∧ (∀ x ∈ r.inorder, q.id < x.id) ∧
      l.Wf ∧ r.Wf

/-- The effect of a severity update on one patient record. -/
def overwriteSev (pid ns : Int) (x : Patient) : Patient :=
  if x.id = pid then { x with severity := ns } else x

/-- The cross-structure consistency invariant of the coordinator: the BST is
well formed, every heap entry carries its patient's priority key, and the
heap's patients are a permutation of the BST's inorder traversal. -/
def CoordInv (st : CoordState) : Prop :=
  st.bst.root.Wf ∧ (∀ e ∈ st.pq.heap, EntryWf e) ∧
    (st.pq.heap.map (·.patient)).Perm st.bst.root.inorder

/-- The identifier added by an `add` interaction, if any. -/
def opAddId : Op → Option Int
  | .add _ pid _ => some pid
  | _ => none

/-- The identifiers of all patients added during a session. -/
def addIds (ops : List Op) : List Int := ops.filterMap opAddId

/-- A direct operation on the `PatientBST` alone: an insertion or a
deletion by identifier. -/
inductive BstOp where
  | ins (p : Patient)
  | del (pid : Int)
  deriving DecidableEq, Repr

/-- Apply a sequence of insertions and deletions to a `PatientBST`. -/
def runBst (t : PatientBST) (ops : List BstOp) : PatientBST :=
  ops.foldl (fun t op =>
    match op with
    | .ins p => t.insert p
    | .del pid => t.delete_by_id pid) t

/-- The identifiers inserted by a sequence of BST operations. -/
def insIds (ops : List BstOp) : List Int :=
  ops.filterMap (fun op =>
    match op with
    | .ins p => some p.id
    | .del _ => none)

/-- The admission scenario of the spec: (id=1,sev=3,arr=1),
(id=2,sev=5,arr=2), (id=3,sev=3,arr=3). -/
def scenarioPatients : List Patient :=
  [⟨1, "A", 3, 1⟩, ⟨2, "B", 5, 2⟩, ⟨3, "C", 3, 3⟩]

/-- A two-doctor rotation used to instantiate coordinator sessions. -/
def rotEx : DoctorRotation := ⟨["Dr1", "Dr2"], 0⟩

/-- A session admitting the three scenario patients. -/
def opsEx : List Op := [.add "A" 1 3, .add "B" 2 5, .add "C" 3 3]

/-- The coordinator state after admitting the three scenario patients. -/
def stEx : CoordState := runOps (initCoord rotEx 5) opsEx

/-- A session against a history ledger of capacity 1: the first service
fills the ledger, then a second patient is admitted. -/
def opsFullHistory : List Op := [.add "A" 1 3, .serve, .add "B" 2 4]

/-- The state reached by `opsFullHistory`: one waiting patient and a full
history ledger. -/
def stFullHistory : CoordState := runOps (initCoord rotEx 1) opsFullHistory

/-- A history stack of capacity 1 holding one record: a full ledger. -/
def fullStack : ServedHistoryStack := ((ServedHistoryStack.init 1).push "A").1

/-! ### Heap drain order -/

theorem lex3_refl (x : Int × Int × Int) : lex3 x x := by
  unfold lex3; omega

theorem lex3_total (x y : Int × Int × Int) : lex3 x y ∨ lex3 y x := by
  unfold lex3; omega

theorem lex3_trans {x y z : Int × Int × Int} (h1 : lex3 x y) (h2 : lex3 y z) :
    lex3 x z := by
  unfold lex3 at *; omega

theorem keyLe_iff {a b : HeapEntry} :
    keyLe a b = true ↔ lex3 (entryKey a) (entryKey b) := by
  simp [keyLe]

theorem popMin_cons_ne_none (e : HeapEntry) (es : List HeapEntry) :
    popMin (e :: es) ≠ none := by
  simp only [popMin]
  cases popMin es with
  | none => simp
  | some p =>
    obtain ⟨m, rest⟩ := p
    dsimp only
    split <;> simp

theorem popMin_eq_none {l : List HeapEntry} : popMin l = none ↔ l = [] := by
  cases l with
  | nil => simp [popMin]
  | cons e es =>
    constructor
    · intro h; exact absurd h (popMin_cons_ne_none e es)
    · intro h; cases h

theorem popMin_perm {l rest : List HeapEntry} {e : HeapEntry}
    (h : popMin l = some (e, rest)) : l.Perm (e :: rest) := by
  induction l generalizing e rest with
  | nil => simp [popMin] at h
  | cons a as ih =>
    simp only [popMin] at h
    cases hm : popMin as with
    | none =>
      rw [hm] at h
      have has : as = [] := popMin_eq_none.mp hm
      subst has
      simp only [Option.some.injEq, Prod.mk.injEq] at h
      obtain ⟨he, hr⟩ := h
      subst he; subst hr
      exact List.Perm.refl _
    | some p =>
      obtain ⟨m, r⟩ := p
      rw [hm] at h
      dsimp only at h
      by_cases hk : keyLe a m
      · rw [if_pos hk] at h
        simp only [Option.some.injEq, Prod.mk.injEq] at h
        obtain ⟨he, hr⟩ := h
        subst he; subst hr
        exact List.Perm.refl _
      · rw [if_neg hk] at h
        simp only [Option.some.injEq, Prod.mk.injEq] at h
        obtain ⟨he, hr⟩ := h
        subst he; subst hr
        exact ((ih hm).cons a).trans (List.Perm.swap _ _ _)

theorem popMin_le {l rest : List HeapEntry} {e : HeapEntry}
    (h : popMin l = some (e, rest)) :
    ∀ x ∈ rest, lex3 (entryKey e) (entryKey x) := by
  induction l generalizing e rest with
  | nil => simp [popMin] at h
  | cons a as ih =>
    simp only [popMin] at h
    cases hm : popMin as with
    | none =>
      rw [hm] at h
      simp only [Option.some.injEq, Prod.mk.injEq] at h
      obtain ⟨he, hr⟩ := h
      subst he; subst hr
      intro x hx
      simp at hx
    | some p =>
      obtain ⟨m, r⟩ := p
      rw [hm] at h
      dsimp only at h
      by_cases hk : keyLe a m
      · rw [if_pos hk] at h
        simp only [Option.some.injEq, Prod.mk.injEq] at h
        obtain ⟨he, hr⟩ := h
        subst he; subst hr
        intro x hx
        have ham : lex3 (entryKey a) (entryKey m) := keyLe_iff.mp hk
        have hx' : x ∈ m :: r := (popMin_perm hm).mem_iff.mp hx
        rcases List.mem_cons.mp hx' with hxm | hxr
        · exact hxm ▸ ham
        · exact lex3_trans ham (ih hm x hxr)
      · rw [if_neg hk] at h
        have hma : lex3 (entryKey m) (entryKey a) :=
          (lex3_total (entryKey m) (entryKey a)).resolve_right
            (fun hc => hk (keyLe_iff.mpr hc))
        simp only [Option.some.injEq, Prod.mk.injEq] at h
        obtain ⟨he, hr⟩ := h
        subst he; subst hr
        intro x hx
        rcases List.mem_cons.mp hx with hxa | hxr
        · subst hxa
          exact hma
        · exact ih hm x hxr

theorem popMin_length {l rest : List HeapEntry} {e : HeapEntry}
    (h : popMin l = some (e, rest)) : rest.length + 1 = l.length := by
  have := (popMin_perm h).length_eq
  simpa using this.symm

theorem popAllGo_perm (fuel : Nat) :
    ∀ l : List HeapEntry, l.length ≤ fuel → (popAllGo l fuel).Perm l := by
  induction fuel with
  | zero =>
    intro l h
    have : l = [] := List.eq_nil_of_length_eq_zero (Nat.le_zero.mp h)
    subst this
    simp [popAllGo]
  | succ fuel ih =>
    intro l h
    cases hm : popMin l with
    | none =>
      have : l = [] := popMin_eq_none.mp hm
      subst this
      simp [popAllGo, popMin]
    | some p =>
      obtain ⟨e, rest⟩ := p
      have hlen : rest.length + 1 = l.length := popMin_length hm
      have hle : rest.length ≤ fuel := by omega
      simp only [popAllGo, hm]
      exact ((ih rest hle).cons e).trans (popMin_perm hm).symm

theorem popAllGo_sorted (fuel : Nat) :
    ∀ l : List HeapEntry, l.length ≤ fuel →
      List.Pairwise (fun a b => lex3 (entryKey a) (entryKey b))
        (popAllGo l fuel) := by
  induction fuel with
  | zero => intro l h; simp [popAllGo]
  | succ fuel ih =>
    intro l h
    cases hm : popMin l with
    | none =>
      have : l = [] := popMin_eq_none.mp hm
      subst this
      simp [popAllGo, popMin]
    | some p =>
      obtain ⟨e, rest⟩ := p
      have hlen : rest.length + 1 = l.length := popMin_length hm
      have hle : rest.length ≤ fuel := by omega
      simp only [popAllGo, hm]
      refine List.Pairwise.cons ?_ (ih rest hle)
      intro x hx
      exact popMin_le hm x ((popAllGo_perm fuel rest hle).mem_iff.mp hx)

theorem popAll_perm (l : List HeapEntry) : (popAll l).Perm l :=
  popAllGo_perm l.length l le_rfl

theorem popAll_sorted (l : List HeapEntry) :
    List.Pairwise (fun a b => lex3 (entryKey a) (entryKey b)) (popAll l) :=
  popAllGo_sorted l.length l le_rfl

theorem arrive_heap_wf (ps : List Patient) :
    ∀ s : PriorityTriageSystem, (∀ e ∈ s.heap, EntryWf e) →
      ∀ e ∈ (ps.foldl PriorityTriageSystem.arrive s).heap, EntryWf e := by
  induction ps with
  | nil => intro s h; simpa using h
  | cons p ps ih =>
    intro s h
    simp only [List.foldl_cons]
    refine ih _ ?_
    intro e he
    simp only [PriorityTriageSystem.arrive, List.mem_append,
      List.mem_singleton] at he
    rcases he with he | he
    · exact h e he
    · subst he; rfl

theorem serveAll_pairwise (s : PriorityTriageSystem)
    (hwf : ∀ e ∈ s.heap, EntryWf e) :
    List.Pairwise
      (fun p q => q.severity ≤ p.severity ∧
        (p.severity = q.severity → p.arrival_time ≤ q.arrival_time))
      s.serveAll := by
  unfold PriorityTriageSystem.serveAll
  rw [List.pairwise_map]
  refine (popAll_sorted s.heap).imp_of_mem ?_
  intro a b ha hb hab
  have hwa : EntryWf a := hwf a ((popAll_perm s.heap).mem_iff.mp ha)
  have hwb : EntryWf b := hwf b ((popAll_perm s.heap).mem_iff.mp hb)
  unfold EntryWf priority_for at hwa hwb
  unfold lex3 entryKey at hab
  rw [hwa, hwb] at hab
  dsimp only at hab
  omega

/-- C1: for every sequence of admissions to the priority structure,
repeatedly calling `serve_next` returns patients in non-increasing severity,
with non-decreasing arrival sequence among equal severities; in particular
the scenario (id=1,sev=3,arr=1), (id=2,sev=5,arr=2), (id=3,sev=3,arr=3) is
served as id=2, id=1, id=3. -/
theorem serve_order_invariant :
    (∀ ps : List Patient,
      List.Pairwise
        (fun p q => q.severity ≤ p.severity ∧
          (p.severity = q.severity → p.arrival_time ≤ q.arrival_time))
        ((ps.foldl PriorityTriageSystem.arrive PriorityTriageSystem.init).serveAll)) ∧
    ((scenarioPatients.foldl PriorityTriageSystem.arrive
        PriorityTriageSystem.init).serveAll.map Patient.id = [2, 1, 3]) := by
  constructor
  · intro ps
    refine serveAll_pairwise _ ?_
    refine arrive_heap_wf ps _ ?_
    intro e he
    simp [PriorityTriageSystem.init] at he
  · decide

/-! ### Binary search tree lemmas -/

theorem overwriteSev_id (pid ns : Int) (x : Patient) :
    (overwriteSev pid ns x).id = x.id := by
  unfold overwriteSev; split <;> rfl

theorem map_overwrite_id {l : List Patient} {pid ns : Int}
    (h : ∀ x ∈ l, x.id ≠ pid) : l.map (overwriteSev pid ns) = l := by
  induction l with
  | nil => rfl
  | cons a as ih =>
    simp only [List.map_cons]
    have ha : overwriteSev pid ns a = a := by
      unfold overwriteSev
      rw [if_neg (h a (List.mem_cons_self a as))]
    rw [ha, ih (fun x hx => h x (List.mem_cons_of_mem a hx))]

theorem inorder_insert_perm (t : PTree) (p : Patient) :
    (t.insert p).inorder.Perm (p :: t.inorder) := by
  induction t with
  | leaf => simp [PTree.insert, PTree.inorder]
  | node l q r ihl ihr =>
    by_cases hlt : p.id < q.id
    · simp only [PTree.insert, if_pos hlt, PTree.inorder]
      exact ihl.append_right (q :: r.inorder)
    · simp only [PTree.insert, if_neg hlt, PTree.inorder]
      refine (List.Perm.append_left l.inorder (ihr.cons q)).trans ?_
      have hmid := @List.perm_middle Patient p (l.inorder ++ [q]) r.inorder
      simpa using hmid

theorem mem_insert_inorder {t : PTree} {p x : Patient} :
    x ∈ (t.insert p).inorder ↔ x = p ∨ x ∈ t.inorder := by
  rw [(inorder_insert_perm t p).mem_iff]
  simp

theorem Wf_insert {t : PTree} {p : Patient} (hwf : t.Wf)
    (hfresh : ∀ x ∈ t.inorder, x.id ≠ p.id) : (t.insert p).Wf := by
  induction t with
  | leaf => simp [PTree.insert, PTree.Wf, PTree.inorder]
  | node l q r ihl ihr =>
    obtain ⟨hl, hr, wl, wr⟩ := hwf
    by_cases hlt : p.id < q.id
    · simp only [PTree.insert, if_pos hlt, PTree.Wf]
      refine ⟨?_, hr, ?_, wr⟩
      · intro x hx
        rcases mem_insert_inorder.mp hx with rfl | hx'
        · exact hlt
        · exact hl x hx'
      · exact ihl wl (fun x hx => hfresh x (by simp [PTree.inorder, hx]))
    · have hq : q ∈ (PTree.node l q r).inorder := by simp [PTree.inorder]
      have hgt : q.id < p.id := by
        have := hfresh q hq
        omega
      simp only [PTree.insert, if_neg hlt, PTree.Wf]
      refine ⟨hl, ?_, wl, ?_⟩
      · intro x hx
        rcases mem_insert_inorder.mp hx with rfl | hx'
        · exact hgt
        · exact hr x hx'
      · exact ihr wr (fun x hx => hfresh x (by simp [PTree.inorder, hx]))

theorem inorder_sorted {t : PTree} (hwf : t.Wf) :
    List.Pairwise (fun a b => a.id < b.id) t.inorder := by
  induction t with
  | leaf => simp [PTree.inorder]
  | node l q r ihl ihr =>
    obtain ⟨hl, hr, wl, wr⟩ := hwf
    simp only [PTree.inorder]
    rw [List.pairwise_append]
    refine ⟨ihl wl, ?_, ?_⟩
    · rw [List.pairwise_cons]
      exact ⟨hr, ihr wr⟩
    · intro a ha b hb
      rcases List.mem_cons.mp hb with rfl | hb'
      · exact hl a ha
      · exact lt_trans (hl a ha) (hr b hb')

theorem update_inorder (t : PTree) : ∀ pid ns : Int, t.Wf →
    (t.update_severity pid ns).2.inorder
      = t.inorder.map (overwriteSev pid ns) := by
  induction t with
  | leaf => intro pid ns _; simp [PTree.update_severity, PTree.inorder]
  | node l q r ihl ihr =>
    intro pid ns hwf
    obtain ⟨hl, hr, wl, wr⟩ := hwf
    by_cases heq : q.id = pid
    · simp only [PTree.update_severity, if_pos heq, PTree.inorder,
        List.map_append, List.map_cons]
      rw [map_overwrite_id (fun x hx => by have := hl x hx; omega),
          map_overwrite_id (fun x hx => by have := hr x hx; omega)]
      have hq : overwriteSev pid ns q = { q with severity := ns } := by
        unfold overwriteSev
        rw [if_pos heq]
      rw [hq]
    · by_cases hlt : pid < q.id
      · simp only [PTree.update_severity, if_neg heq, if_pos hlt,
          PTree.inorder, List.map_append, List.map_cons]
        have hq : overwriteSev pid ns q = q := by
          unfold overwriteSev
          rw [if_neg heq]
        rw [ihl pid ns wl, hq,
            show r.inorder.map (overwriteSev pid ns) = r.inorder from
              map_overwrite_id (fun x hx => by have := hr x hx; omega)]
      · simp only [PTree.update_severity, if_neg heq, if_neg hlt,
          PTree.inorder, List.map_append, List.map_cons]
        have hq : overwriteSev pid ns q = q := by
          unfold overwriteSev
          rw [if_neg heq]
        rw [ihr pid ns wr, hq,
            show l.inorder.map (overwriteSev pid ns) = l.inorder from
              map_overwrite_id (fun x hx => by have := hl x hx; omega)]

theorem update_fst (t : PTree) : ∀ pid ns : Int, t.Wf →
    ((t.update_severity pid ns).1 = true ↔ ∃ x ∈ t.inorder, x.id = pid) := by
  induction t with
  | leaf => intro pid ns _; simp [PTree.update_severity, PTree.inorder]
  | node l q r ihl ihr =>
    intro pid ns hwf
    obtain ⟨hl, hr, wl, wr⟩ := hwf
    by_cases heq : q.id = pid
    · simp only [PTree.update_severity, if_pos heq]
      exact ⟨fun _ => ⟨q, by simp [PTree.inorder], heq⟩, fun _ => by trivial⟩
    · by_cases hlt : pid < q.id
      · simp only [PTree.update_severity, if_neg heq, if_pos hlt]
        rw [ihl pid ns wl]
        constructor
        · rintro ⟨x, hx, hxid⟩
          exact ⟨x, by simp [PTree.inorder, hx], hxid⟩
        · rintro ⟨x, hx, hxid⟩
          simp only [PTree.inorder, List.mem_append, List.mem_cons] at hx
          rcases hx with hx | hx | hx
          · exact ⟨x, hx, hxid⟩
          · subst hx; omega
          · have := hr x hx; omega
      · simp only [PTree.update_severity, if_neg heq, if_neg hlt]
        rw [ihr pid ns wr]
        constructor
        · rintro ⟨x, hx, hxid⟩
          exact ⟨x, by simp [PTree.inorder, hx], hxid⟩
        · rintro ⟨x, hx, hxid⟩
          simp only [PTree.inorder, List.mem_append, List.mem_cons] at hx
          rcases hx with hx | hx | hx
          · have := hl x hx; omega
          · subst hx; omega
          · exact ⟨x, hx, hxid⟩

theorem Wf_update (t : PTree) : ∀ pid ns : Int, t.Wf →
    (t.update_severity pid ns).2.Wf := by
  induction t with
  | leaf => intro pid ns _; simp [PTree.update_severity, PTree.Wf]
  | node l q r ihl ihr =>
    intro pid ns hwf
    obtain ⟨hl, hr, wl, wr⟩ := hwf
    by_cases heq : q.id = pid
    · simp only [PTree.update_severity, if_pos heq, PTree.Wf]
      exact ⟨hl, hr, wl, wr⟩
    · by_cases hlt : pid < q.id
      · simp only [PTree.update_severity, if_neg heq, if_pos hlt, PTree.Wf]
        refine ⟨?_, hr, ihl pid ns wl, wr⟩
        intro x hx
        rw [update_inorder l pid ns wl] at hx
        obtain ⟨y, hy, rfl⟩ := List.mem_map.mp hx
        rw [overwriteSev_id]
        exact hl y hy
      · simp only [PTree.update_severity, if_neg heq, if_neg hlt, PTree.Wf]
        refine ⟨hl, ?_, wl, ihr pid ns wr⟩
        intro x hx
        rw [update_inorder r pid ns wr] at hx
        obtain ⟨y, hy, rfl⟩ := List.mem_map.mp hx
        rw [overwriteSev_id]
        exact hr y hy
theorem id_ne_true {a b : Int} (h : a ≠ b) : (a != b) = true := by
  simpa [bne_iff_ne] using h

theorem inorder_leaf : PTree.leaf.inorder = [] := rfl

theorem inorder_node (l : PTree) (q : Patient) (r : PTree) :
    (PTree.node l q r).inorder = l.inorder ++ q :: r.inorder := rfl

theorem minFrom_head (t : PTree) : ∀ d : Patient, t ≠ .leaf →
    ∃ rest, t.inorder = t.minFrom d :: rest := by
  induction t with
  | leaf => intro d h; exact absurd rfl h
  | node l q r ihl ihr =>
    intro d _
    cases l with
    | leaf => exact ⟨r.inorder, rfl⟩
    | node a b c =>
      obtain ⟨rest, hrest⟩ := ihl q (by simp)
      refine ⟨rest ++ q :: r.inorder, ?_⟩
      show (PTree.node a b c).inorder ++ q :: r.inorder
          = (PTree.node a b c).minFrom q :: (rest ++ q :: r.inorder)
      rw [hrest]
      rfl

theorem delete_both_leaf (q : Patient) (pid : Int)
    (h1 : ¬ pid < q.id) (h2 : ¬ q.id < pid) :
    (PTree.node .leaf q .leaf).delete pid = .leaf := by
  simp only [PTree.delete, if_neg h1, if_neg h2]

theorem delete_left_leaf (q : Patient) (pid : Int) (d : PTree) (e : Patient)
    (f : PTree) (h1 : ¬ pid < q.id) (h2 : ¬ q.id < pid) :
    (PTree.node .leaf q (PTree.node d e f)).delete pid = PTree.node d e f := by
  simp only [PTree.delete, if_neg h1, if_neg h2]

theorem delete_right_leaf (a : PTree) (b : Patient) (c : PTree) (q : Patient)
    (pid : Int) (h1 : ¬ pid < q.id) (h2 : ¬ q.id < pid) :
    (PTree.node (PTree.node a b c) q .leaf).delete pid = PTree.node a b c := by
  simp only [PTree.delete, if_neg h1, if_neg h2]

theorem delete_two_children (a : PTree) (b : Patient) (c : PTree) (q : Patient)
    (d : PTree) (e : Patient) (f : PTree) (pid : Int)
    (h1 : ¬ pid < q.id) (h2 : ¬ q.id < pid) :
    (PTree.node (PTree.node a b c) q (PTree.node d e f)).delete pid
      = PTree.node (PTree.node a b c) ((PTree.node d e f).minFrom q)
          ((PTree.node d e f).delete ((PTree.node d e f).minFrom q).id) := by
  simp only [PTree.delete, if_neg h1, if_neg h2]

theorem delete_inorder (t : PTree) : ∀ pid : Int, t.Wf →
    (t.delete pid).inorder = t.inorder.filter (fun x => x.id != pid) := by
  induction t with
  | leaf => intro pid _; simp [PTree.delete, PTree.inorder]
  | node l q r ihl ihr =>
    intro pid hwf
    obtain ⟨hl, hr, wl, wr⟩ := hwf
    by_cases h1 : pid < q.id
    · rw [show (PTree.node l q r).delete pid
            = PTree.node (l.delete pid) q r by
          simp only [PTree.delete, if_pos h1]]
      rw [inorder_node, inorder_node, ihl pid wl, List.filter_append]
      rw [List.filter_cons_of_pos]
      · have hfr : List.filter (fun x => x.id != pid) r.inorder = r.inorder :=
          List.filter_eq_self.mpr
            (fun x hx => id_ne_true (by have := hr x hx; omega))
        rw [hfr]
      · exact id_ne_true (by omega)
    · by_cases h2 : q.id < pid
      · rw [show (PTree.node l q r).delete pid
              = PTree.node l q (r.delete pid) by
            simp only [PTree.delete, if_neg h1, if_pos h2]]
        rw [inorder_node, inorder_node, ihr pid wr, List.filter_append]
        rw [List.filter_cons_of_pos]
        · have hfl : List.filter (fun x => x.id != pid) l.inorder = l.inorder :=
            List.filter_eq_self.mpr
              (fun x hx => id_ne_true (by have := hl x hx; omega))
          rw [hfl]
        · exact id_ne_true (by omega)
      · have heq : q.id = pid := by omega
        subst heq
        cases l with
        | leaf =>
          cases r with
          | leaf =>
            rw [delete_both_leaf q _ h1 h2]
            simp [PTree.inorder]
          | node d e f =>
            rw [delete_left_leaf q _ d e f h1 h2,
              inorder_node PTree.leaf q (PTree.node d e f), inorder_leaf,
              List.nil_append]
            rw [List.filter_cons_of_neg]
            · exact (List.filter_eq_self.mpr
                (fun x hx => id_ne_true (by have := hr x hx; omega))).symm
            · simp
        | node a b c =>
          cases r with
          | leaf =>
            rw [delete_right_leaf a b c q _ h1 h2,
              inorder_node (PTree.node a b c) q PTree.leaf,
              List.filter_append]
            rw [List.filter_cons_of_neg]
            · have hfl : List.filter (fun x => x.id != q.id)
                  (PTree.node a b c).inorder = (PTree.node a b c).inorder :=
                List.filter_eq_self.mpr
                  (fun x hx => id_ne_true (by have := hl x hx; omega))
              rw [hfl]
              simp [PTree.inorder]
            · simp
          | node d e f =>
            rw [delete_two_children a b c q d e f _ h1 h2]
            obtain ⟨rest, hrest⟩ := minFrom_head (PTree.node d e f) q (by simp)
            have hsorted := inorder_sorted wr
            rw [hrest] at hsorted
            have hrestlt : ∀ x ∈ rest,
                ((PTree.node d e f).minFrom q).id < x.id :=
              (List.pairwise_cons.mp hsorted).1
            have hdel :
                ((PTree.node d e f).delete
                  ((PTree.node d e f).minFrom q).id).inorder = rest := by
              rw [ihr _ wr, hrest]
              rw [List.filter_cons_of_neg]
              · exact List.filter_eq_self.mpr
                  (fun x hx => id_ne_true (by have := hrestlt x hx; omega))
              · simp
            rw [inorder_node _ ((PTree.node d e f).minFrom q) _, hdel,
              inorder_node _ q _, List.filter_append]
            rw [List.filter_cons_of_neg]
            · have hfl : List.filter (fun x => x.id != q.id)
                  (PTree.node a b c).inorder = (PTree.node a b c).inorder :=
                List.filter_eq_self.mpr
                  (fun x hx => id_ne_true (by have := hl x hx; omega))
              have hfr : List.filter (fun x => x.id != q.id)
                  (PTree.node d e f).inorder = (PTree.node d e f).inorder :=
                List.filter_eq_self.mpr
                  (fun x hx => id_ne_true (by have := hr x hx; omega))
              rw [hfl, hfr, hrest]
            · simp

theorem Wf_delete (t : PTree) : ∀ pid : Int, t.Wf → (t.delete pid).Wf := by
  induction t with
  | leaf => intro pid _; simp [PTree.delete, PTree.Wf]
  | node l q r ihl ihr =>
    intro pid hwf
    obtain ⟨hl, hr, wl, wr⟩ := hwf
    by_cases h1 : pid < q.id
    · rw [show (PTree.node l q r).delete pid
            = PTree.node (l.delete pid) q r by
          simp only [PTree.delete, if_pos h1]]
      refine ⟨?_, hr, ihl pid wl, wr⟩
      intro x hx
      rw [delete_inorder l pid wl] at hx
      exact hl x (List.mem_filter.mp hx).1
    · by_cases h2 : q.id < pid
      · rw [show (PTree.node l q r).delete pid
              = PTree.node l q (r.delete pid) by
            simp only [PTree.delete, if_neg h1, if_pos h2]]
        refine ⟨hl, ?_, wl, ihr pid wr⟩
        intro x hx
        rw [delete_inorder r pid wr] at hx
        exact hr x (List.mem_filter.mp hx).1
      · cases l with
        | leaf =>
          cases r with
          | leaf =>
            rw [delete_both_leaf q _ h1 h2]
            trivial
          | node d e f =>
            rw [delete_left_leaf q _ d e f h1 h2]
            exact wr
        | node a b c =>
          cases r with
          | leaf =>
            rw [delete_right_leaf a b c q _ h1 h2]
            exact wl
          | node d e f =>
            rw [delete_two_children a b c q d e f _ h1 h2]
            obtain ⟨rest, hrest⟩ := minFrom_head (PTree.node d e f) q (by simp)
            have hsmem : (PTree.node d e f).minFrom q
                ∈ (PTree.node d e f).inorder := by
              rw [hrest]; exact List.mem_cons_self _ _
            have hsorted := inorder_sorted wr
            rw [hrest] at hsorted
            have hrestlt : ∀ x ∈ rest,
                ((PTree.node d e f).minFrom q).id < x.id :=
              (List.pairwise_cons.mp hsorted).1
            have hdel :
                ((PTree.node d e f).delete
                  ((PTree.node d e f).minFrom q).id).inorder = rest := by
              rw [delete_inorder _ _ wr, hrest]
              rw [List.filter_cons_of_neg]
              · exact List.filter_eq_self.mpr
                  (fun x hx => id_ne_true (by have := hrestlt x hx; omega))
              · simp
            have hqs : q.id < ((PTree.node d e f).minFrom q).id := hr _ hsmem
            refine ⟨?_, ?_, wl, ihr _ wr⟩
            · intro x hx
              have := hl x hx
              omega
            · intro x hx
              rw [hdel] at hx
              exact hrestlt x hx

/-! ### Heap update lemmas -/

theorem updateEntry_fst (pid ns : Int) (l : List HeapEntry) :
    ((updateEntry pid ns l).1 = true ↔ ∃ e ∈ l, e.patient.id = pid) := by
  induction l with
  | nil => simp [updateEntry]
  | cons e es ih =>
    by_cases he : e.patient.id = pid
    · simp only [updateEntry, if_pos he]
      exact ⟨fun _ => ⟨e, List.mem_cons_self e es, he⟩, fun _ => trivial⟩
    · simp only [updateEntry, if_neg he]
      rw [show ((updateEntry pid ns es).1,
            e :: (updateEntry pid ns es).2).1 = (updateEntry pid ns es).1
          from rfl, ih]
      constructor
      · rintro ⟨x, hx, hxid⟩
        exact ⟨x, List.mem_cons_of_mem e hx, hxid⟩
      · rintro ⟨x, hx, hxid⟩
        rcases List.mem_cons.mp hx with rfl | hx'
        · exact absurd hxid he
        · exact ⟨x, hx', hxid⟩

theorem updateEntry_ids (pid ns : Int) (l : List HeapEntry) :
    (updateEntry pid ns l).2.map (fun e => e.patient.id)
      = l.map (fun e => e.patient.id) := by
  induction l with
  | nil => rfl
  | cons e es ih =>
    by_cases he : e.patient.id = pid
    · simp only [updateEntry, if_pos he, List.map_cons]
    · simp only [updateEntry, if_neg he, List.map_cons]
      rw [ih]

theorem updateEntry_wf (pid ns : Int) (l : List HeapEntry)
    (h : ∀ e ∈ l, EntryWf e) : ∀ e ∈ (updateEntry pid ns l).2, EntryWf e := by
  induction l with
  | nil => simp [updateEntry]
  | cons e es ih =>
    by_cases he : e.patient.id = pid
    · simp only [updateEntry, if_pos he]
      intro x hx
      rcases List.mem_cons.mp hx with rfl | hx'
      · rfl
      · exact h x (List.mem_cons_of_mem e hx')
    · simp only [updateEntry, if_neg he]
      intro x hx
      rcases List.mem_cons.mp hx with rfl | hx'
      · exact h x (List.mem_cons_self _ _)
      · exact ih (fun y hy => h y (List.mem_cons_of_mem e hy)) x hx'

theorem updateEntry_patients (pid ns : Int) (l : List HeapEntry)
    (h : (l.map (fun e => e.patient.id)).Nodup) :
    (updateEntry pid ns l).2.map (·.patient)
      = (l.map (·.patient)).map (overwriteSev pid ns) := by
  induction l with
  | nil => rfl
  | cons e es ih =>
    rw [List.map_cons, List.nodup_cons] at h
    obtain ⟨hhead, htail⟩ := h
    by_cases he : e.patient.id = pid
    · simp only [updateEntry, if_pos he, List.map_cons]
      have h1 : overwriteSev pid ns e.patient
          = { e.patient with severity := ns } := by
        unfold overwriteSev
        rw [if_pos he]
      have h2 : (es.map (·.patient)).map (overwriteSev pid ns)
          = es.map (·.patient) :=
        map_overwrite_id (fun x hx => by
          obtain ⟨y, hy, rfl⟩ := List.mem_map.mp hx
          intro hcon
          exact hhead (List.mem_map.mpr ⟨y, hy, by rw [hcon, he]⟩))
      rw [h1, h2]
    · simp only [updateEntry, if_neg he, List.map_cons]
      have h1 : overwriteSev pid ns e.patient = e.patient := by
        unfold overwriteSev
        rw [if_neg he]
      rw [h1, ih htail]

/-! ### Coordinator invariant -/

theorem inv_init (rot : DoctorRotation) (cap : Int) :
    CoordInv (initCoord rot cap) := by
  refine ⟨trivial, ?_, ?_⟩ <;>
    simp [initCoord, PriorityTriageSystem.init, PatientBST.init, PTree.inorder]

theorem inv_heap_ids_nodup {st : CoordState} (h : CoordInv st) :
    (st.pq.heap.map (fun e => e.patient.id)).Nodup := by
  obtain ⟨hwf, _, hperm⟩ := h
  have h1 : (st.bst.root.inorder.map (fun p => p.id)).Nodup := by
    have := List.pairwise_map.mpr
      ((inorder_sorted hwf).imp (fun hab => Int.ne_of_lt hab))
    exact this
  have h2 : st.pq.heap.map (fun e => e.patient.id)
      = (st.pq.heap.map (·.patient)).map (fun p => p.id) := by
    rw [List.map_map]
    rfl
  rw [h2]
  exact (List.Perm.nodup_iff (hperm.map (fun p => p.id))).mpr h1

theorem arrive_patients (s : PriorityTriageSystem) (p : Patient) :
    (s.arrive p).heap.map (·.patient) = s.heap.map (·.patient) ++ [p] := by
  simp [PriorityTriageSystem.arrive]

theorem inv_runOp_add {st : CoordState} (name : String) (pid severity : Int)
    (hinv : CoordInv st)
    (hfresh : pid ∉ st.pq.heap.map (fun e => e.patient.id)) :
    CoordInv (runOp st (.add name pid severity)) := by
  obtain ⟨hwf, hew, hperm⟩ := hinv
  refine ⟨?_, ?_, ?_⟩
  · apply Wf_insert hwf
    intro x hx hxid
    apply hfresh
    have hxheap : x ∈ st.pq.heap.map (·.patient) := hperm.mem_iff.mpr hx
    obtain ⟨e, he, hex⟩ := List.mem_map.mp hxheap
    exact List.mem_map.mpr ⟨e, he, by rw [hex, hxid]⟩
  · intro e he
    simp only [runOp, PriorityTriageSystem.arrive, List.mem_append,
      List.mem_singleton] at he
    rcases he with he | he
    · exact hew e he
    · subst he; rfl
  · show ((st.pq.arrive _).heap.map (·.patient)).Perm
      (st.bst.root.insert _).inorder
    rw [arrive_patients]
    refine (List.perm_append_singleton _ _).trans ?_
    exact (hperm.cons _).trans (inorder_insert_perm _ _).symm

theorem inv_runOp_update {st : CoordState} (pid ns : Int)
    (hinv : CoordInv st) : CoordInv (runOp st (.update pid ns)) := by
  have hnodup := inv_heap_ids_nodup hinv
  obtain ⟨hwf, hew, hperm⟩ := hinv
  refine ⟨?_, ?_, ?_⟩
  · exact Wf_update _ pid ns hwf
  · exact updateEntry_wf pid ns _ hew
  · show ((updateEntry pid ns st.pq.heap).2.map (·.patient)).Perm
      (st.bst.root.update_severity pid ns).2.inorder
    rw [updateEntry_patients pid ns _ hnodup, update_inorder _ pid ns hwf]
    exact hperm.map (overwriteSev pid ns)

theorem inv_runOp_serve {st : CoordState} (hinv : CoordInv st) :
    CoordInv (runOp st .serve) := by
  have hnodup := inv_heap_ids_nodup hinv
  obtain ⟨hwf, hew, hperm⟩ := hinv
  cases hm : popMin st.pq.heap with
  | none =>
    simp only [runOp, PriorityTriageSystem.serve_next, hm]
    exact ⟨hwf, hew, hperm⟩
  | some pr =>
    obtain ⟨e, rest⟩ := pr
    simp only [runOp, PriorityTriageSystem.serve_next, hm]
    have hperm2 : (st.pq.heap.map (·.patient)).Perm
        (e.patient :: rest.map (·.patient)) := (popMin_perm hm).map (·.patient)
    refine ⟨Wf_delete _ _ hwf, ?_, ?_⟩
    · intro x hx
      exact hew x ((popMin_perm hm).mem_iff.mpr (List.mem_cons_of_mem e hx))
    · show ((rest.map (·.patient)).Perm (st.bst.root.delete e.patient.id).inorder)
      rw [delete_inorder _ _ hwf]
      have hidnodup : ((e.patient :: rest.map (·.patient)).map
          (fun p => p.id)).Nodup := by
        refine (List.Perm.nodup_iff (hperm2.map (fun p => p.id))).mp ?_
        have h2 : st.pq.heap.map (fun x => x.patient.id)
            = (st.pq.heap.map (·.patient)).map (fun p => p.id) := by
          rw [List.map_map]
          rfl
        rw [← h2]
        exact hnodup
      rw [List.map_cons, List.nodup_cons] at hidnodup
      obtain ⟨hhead, _⟩ := hidnodup
      have hfilter : (e.patient :: rest.map (·.patient)).filter
          (fun x => x.id != e.patient.id) = rest.map (·.patient) := by
        rw [List.filter_cons_of_neg (by simp)]
        refine List.filter_eq_self.mpr ?_
        intro a ha
        refine id_ne_true ?_
        intro hcon
        exact hhead (List.mem_map.mpr ⟨a, ha, hcon⟩)
      have hio : st.bst.root.inorder.Perm
          (e.patient :: rest.map (·.patient)) := hperm.symm.trans hperm2
      have hf := hio.filter (fun x => x.id != e.patient.id)
      rw [hfilter] at hf
      exact hf.symm

theorem addIds_add (n : String) (p s : Int) (ops : List Op) :
    addIds (.add n p s :: ops) = p :: addIds ops := by
  simp [addIds, opAddId]

theorem addIds_update (p n : Int) (ops : List Op) :
    addIds (.update p n :: ops) = addIds ops := by
  simp [addIds, opAddId]

theorem addIds_serve (ops : List Op) :
    addIds (.serve :: ops) = addIds ops := by
  simp [addIds, opAddId]

theorem runOp_add_ids (st : CoordState) (n : String) (pid s : Int) :
    (runOp st (.add n pid s)).pq.heap.map (fun e => e.patient.id)
      = st.pq.heap.map (fun e => e.patient.id) ++ [pid] := by
  simp [runOp, PriorityTriageSystem.arrive]

theorem runOp_update_ids (st : CoordState) (pid ns : Int) :
    (runOp st (.update pid ns)).pq.heap.map (fun e => e.patient.id)
      = st.pq.heap.map (fun e => e.patient.id) := by
  show ((updateEntry pid ns st.pq.heap).2.map (fun e => e.patient.id)) = _
  exact updateEntry_ids pid ns _

theorem runOp_serve_ids (st : CoordState) :
    ∀ i ∈ (runOp st .serve).pq.heap.map (fun e => e.patient.id),
      i ∈ st.pq.heap.map (fun e => e.patient.id) := by
  cases hm : popMin st.pq.heap with
  | none =>
    simp only [runOp, PriorityTriageSystem.serve_next, hm]
    exact fun i hi => hi
  | some pr =>
    obtain ⟨e, rest⟩ := pr
    simp only [runOp, PriorityTriageSystem.serve_next, hm]
    intro i hi
    obtain ⟨x, hx, hxi⟩ := List.mem_map.mp hi
    exact List.mem_map.mpr
      ⟨x, (popMin_perm hm).mem_iff.mpr (List.mem_cons_of_mem e hx), hxi⟩

theorem runOps_inv (ops : List Op) :
    ∀ st : CoordState, CoordInv st → (addIds ops).Nodup →
      (∀ i ∈ addIds ops, i ∉ st.pq.heap.map (fun e => e.patient.id)) →
      CoordInv (runOps st ops) := by
  induction ops with
  | nil => intro st h _ _; exact h
  | cons op rest ih =>
    intro st hinv hnd hfresh
    cases op with
    | add name pid sev =>
      rw [addIds_add] at hnd hfresh
      rw [List.nodup_cons] at hnd
      show CoordInv (runOps (runOp st (.add name pid sev)) rest)
      refine ih _ (inv_runOp_add name pid sev hinv
        (hfresh pid (List.mem_cons_self _ _))) hnd.2 ?_
      intro i hi
      rw [runOp_add_ids]
      intro hcon
      rcases List.mem_append.mp hcon with hcon | hcon
      · exact hfresh i (List.mem_cons_of_mem _ hi) hcon
      · rw [List.mem_singleton] at hcon
        subst hcon
        exact hnd.1 hi
    | update pid ns =>
      rw [addIds_update] at hnd hfresh
      show CoordInv (runOps (runOp st (.update pid ns)) rest)
      refine ih _ (inv_runOp_update pid ns hinv) hnd ?_
      intro i hi
      rw [runOp_update_ids]
      exact hfresh i hi
    | serve =>
      rw [addIds_serve] at hnd hfresh
      show CoordInv (runOps (runOp st .serve) rest)
      refine ih _ (inv_runOp_serve hinv) hnd ?_
      intro i hi hcon
      exact hfresh i hi (runOp_serve_ids st i hcon)

/-- C2: after any sequence of add, update-severity and serve interactions
with distinct added identifiers, the identifiers present in the BST equal
the identifiers present in the priority heap, and patients with the same
identifier in both structures carry the same severity and arrival
sequence. -/
theorem index_structure_consistency (rot : DoctorRotation) (cap : Int)
    (ops : List Op) (h : (addIds ops).Nodup) :
    (∀ i : Int,
        i ∈ (runOps (initCoord rot cap) ops).pq.heap.map
            (fun e => e.patient.id)
          ↔ i ∈ (runOps (initCoord rot cap) ops).bst.inorder.map
            (fun p => p.id)) ∧
    (∀ p q : Patient,
        p ∈ (runOps (initCoord rot cap) ops).pq.heap.map (·.patient) →
        q ∈ (runOps (initCoord rot cap) ops).bst.inorder →
        p.id = q.id →
        p.severity = q.severity ∧ p.arrival_time = q.arrival_time) := by
  have hinv : CoordInv (runOps (initCoord rot cap) ops) :=
    runOps_inv ops _ (inv_init rot cap) h
      (by intro i hi; simp [initCoord, PriorityTriageSystem.init])
  obtain ⟨hwf, hew, hperm⟩ := hinv
  constructor
  · intro i
    constructor
    · intro hi
      obtain ⟨e, he, hei⟩ := List.mem_map.mp hi
      have hm : e.patient ∈ (runOps (initCoord rot cap) ops).bst.inorder :=
        hperm.mem_iff.mp (List.mem_map.mpr ⟨e, he, rfl⟩)
      exact List.mem_map.mpr ⟨e.patient, hm, hei⟩
    · intro hi
      obtain ⟨x, hx, hxi⟩ := List.mem_map.mp hi
      have hm : x ∈ (runOps (initCoord rot cap) ops).pq.heap.map (·.patient) :=
        hperm.mem_iff.mpr hx
      obtain ⟨e, he, hex⟩ := List.mem_map.mp hm
      exact List.mem_map.mpr ⟨e, he, by rw [show e.patient.id = x.id by rw [hex], hxi]⟩
  · intro p q hp hq hpq
    have hp' : p ∈ (runOps (initCoord rot cap) ops).bst.inorder :=
      hperm.mem_iff.mp hp
    have hnodup : ((runOps (initCoord rot cap) ops).bst.inorder.map
        (fun x => x.id)).Nodup :=
      List.pairwise_map.mpr ((inorder_sorted hwf).imp (fun hab => Int.ne_of_lt hab))
    have hpq' : p = q := List.inj_on_of_nodup_map hnodup hp' hq hpq
    subst hpq'
    exact ⟨rfl, rfl⟩

/-- Witness for C2 at a concrete session. -/
theorem index_structure_consistency_witness :
    (addIds opsEx).Nodup ∧
    ((∀ i : Int,
        i ∈ (runOps (initCoord rotEx 5) opsEx).pq.heap.map
            (fun e => e.patient.id)
          ↔ i ∈ (runOps (initCoord rotEx 5) opsEx).bst.inorder.map
            (fun p => p.id)) ∧
    (∀ p q : Patient,
        p ∈ (runOps (initCoord rotEx 5) opsEx).pq.heap.map (·.patient) →
        q ∈ (runOps (initCoord rotEx 5) opsEx).bst.inorder →
        p.id = q.id →
        p.severity = q.severity ∧ p.arrival_time = q.arrival_time)) :=
  ⟨by decide, index_structure_consistency rotEx 5 opsEx (by decide)⟩

/-! ### Constructors and capacity -/

/-- C3 counterexample: both bounded-capacity constructors accept a
non-positive capacity without any validation — the object exists in that
state, contradicting the claim that construction fails.  The zero-capacity
history stack is even operable: it reports itself full and rejects pushes
with a printed error. -/
theorem construction_no_validation_counterexample :
    ServedHistoryStack.init 0
      = { stack := [], size := 0, capacity := 0 } ∧
    (ServedHistoryStack.init 0).is_full = true ∧
    ((ServedHistoryStack.init 0).push "A").1 = ServedHistoryStack.init 0 ∧
    FCFSTriageSystem.init (some 0)
      = { queue := [], size := 0, capacity := some 0 } ∧
    (FCFSTriageSystem.init (some 0)).is_full = true := by
  decide

/-- C3 amended: the constructors store any integer capacity unvalidated; a
structure constructed with non-positive capacity is permanently full from
birth: `is_full` holds and every push or arrival is rejected without a
state change. -/
theorem construction_nonpositive_capacity (cap : Int) (h : cap ≤ 0) :
    (ServedHistoryStack.init cap).capacity = cap ∧
    (ServedHistoryStack.init cap).is_full = true ∧
    (∀ v : String, ((ServedHistoryStack.init cap).push v).1
      = ServedHistoryStack.init cap) ∧
    (FCFSTriageSystem.init (some cap)).capacity = some cap ∧
    (FCFSTriageSystem.init (some cap)).is_full = true ∧
    (∀ p : Patient, (FCFSTriageSystem.init (some cap)).arrive p
      = (false, FCFSTriageSystem.init (some cap))) := by
  have h1 : (ServedHistoryStack.init cap).is_full = true := by
    simp [ServedHistoryStack.init, ServedHistoryStack.is_full]
    omega
  have h2 : (FCFSTriageSystem.init (some cap)).is_full = true := by
    simp [FCFSTriageSystem.init, FCFSTriageSystem.is_full]
    omega
  refine ⟨rfl, h1, ?_, rfl, h2, ?_⟩
  · intro v
    simp [ServedHistoryStack.push, h1]
  · intro p
    simp [FCFSTriageSystem.arrive, h2]

/-- Witness for the amended C3 at capacity 0. -/
theorem construction_nonpositive_capacity_witness :
    (0 : Int) ≤ 0 ∧
    ((ServedHistoryStack.init 0).capacity = 0 ∧
    (ServedHistoryStack.init 0).is_full = true ∧
    (∀ v : String, ((ServedHistoryStack.init 0).push v).1
      = ServedHistoryStack.init 0) ∧
    (FCFSTriageSystem.init (some 0)).capacity = some 0 ∧
    (FCFSTriageSystem.init (some 0)).is_full = true ∧
    (∀ p : Patient, (FCFSTriageSystem.init (some 0)).arrive p
      = (false, FCFSTriageSystem.init (some 0)))) :=
  ⟨by decide, construction_nonpositive_capacity 0 (by decide)⟩

/-- C4 counterexample: pushing onto a full history stack leaves the state
unchanged but the method returns no Boolean at all — the only failure
signal is the printed error line. -/
theorem full_push_returns_no_boolean :
    fullStack.is_full = true ∧
    fullStack.push "C"
      = (fullStack,
         [print_error "History stack is full! Cannot push new record."]) := by
  decide

/-- C4 amended: adding to a full structure never changes size or contents;
`FCFSTriageSystem.arrive` signals the failure by returning `false`, while
`ServedHistoryStack.push` merely prints an error line and returns nothing. -/
theorem full_add_rejected :
    (∀ (s : ServedHistoryStack) (v : String), s.is_full = true →
      s.push v
        = (s, [print_error "History stack is full! Cannot push new record."])) ∧
    (∀ (f : FCFSTriageSystem) (p : Patient), f.is_full = true →
      f.arrive p = (false, f)) := by
  constructor
  · intro s v h
    simp [ServedHistoryStack.push, h]
  · intro f p h
    simp [FCFSTriageSystem.arrive, h]

/-- Witness for the amended C4 at a concrete full stack and full list. -/
theorem full_add_rejected_witness :
    (fullStack.is_full = true ∧
      fullStack.push "C"
        = (fullStack,
           [print_error "History stack is full! Cannot push new record."])) ∧
    (((FCFSTriageSystem.init (some 0))).is_full = true ∧
      (FCFSTriageSystem.init (some 0)).arrive ⟨1, "A", 3, 1⟩
        = (false, FCFSTriageSystem.init (some 0))) :=
  ⟨⟨by decide, full_add_rejected.1 fullStack "C" (by decide)⟩,
   ⟨by decide, full_add_rejected.2 (FCFSTriageSystem.init (some 0))
      ⟨1, "A", 3, 1⟩ (by decide)⟩⟩

/-! ### Rotation cycle -/

theorem rotation_run_outputs (names : List String) :
    ∀ k i : Nat, i < names.length →
      (({ doctor_names := names, current := i } : DoctorRotation).run k).1
        = (List.range k).map
            (fun j => names.getD ((i + j) % names.length) "") := by
  intro k
  induction k with
  | zero => intro i _; simp [DoctorRotation.run]
  | succ k ih =>
    intro i h
    have hlen : 0 < names.length := Nat.lt_of_le_of_lt (Nat.zero_le i) h
    simp only [DoctorRotation.run, DoctorRotation.next_doctor]
    rw [ih ((i + 1) % names.length) (Nat.mod_lt _ hlen),
      List.range_succ_eq_map, List.map_cons, List.map_map]
    congr 1
    · rw [Nat.add_zero, Nat.mod_eq_of_lt h]
    · apply List.map_congr_left
      intro j _
      show names.getD (((i + 1) % names.length + j) % names.length) ""
        = names.getD ((i + (j + 1)) % names.length) ""
      rw [Nat.mod_add_mod, show i + 1 + j = i + (j + 1) from by omega]

theorem map_getD_range (l : List String) :
    (List.range l.length).map (fun j => l.getD j "") = l := by
  induction l with
  | nil => rfl
  | cons a as ih =>
    rw [show (a :: as).length = as.length + 1 from rfl,
      List.range_succ_eq_map, List.map_cons, List.map_map]
    have h2 : ((fun j => (a :: as).getD j "") ∘ (· + 1))
        = (fun j => as.getD j "") := funext (fun j => rfl)
    rw [h2, ih]
    rfl

/-- C7: a rotation built from `N` doctor names returns, over the first `N`
calls to `next_doctor`, exactly the names in construction order, and the
`(N+1)`-th call returns the first name again; construction only fails on an
empty list. -/
theorem rotation_cycle (names : List String) (h : names ≠ []) :
    DoctorRotation.init names
        = .ok { doctor_names := names, current := 0 } ∧
    (({ doctor_names := names, current := 0 } : DoctorRotation).run
        names.length).1 = names ∧
    (({ doctor_names := names, current := 0 } : DoctorRotation).run
        (names.length + 1)).1 = names ++ [names.getD 0 ""] := by
  have hlen : 0 < names.length := List.length_pos.mpr h
  have houtputs : ∀ k : Nat,
      (({ doctor_names := names, current := 0 } : DoctorRotation).run k).1
        = (List.range k).map (fun j => names.getD (j % names.length) "") := by
    intro k
    rw [rotation_run_outputs names k 0 hlen]
    apply List.map_congr_left
    intro j _
    rw [Nat.zero_add]
  refine ⟨?_, ?_, ?_⟩
  · simp [DoctorRotation.init, h]
  · rw [houtputs]
    rw [show (List.range names.length).map
          (fun j => names.getD (j % names.length) "")
        = (List.range names.length).map (fun j => names.getD j "") from
      List.map_congr_left (fun j hj => by
        rw [Nat.mod_eq_of_lt (List.mem_range.mp hj)])]
    exact map_getD_range names
  · rw [houtputs, List.range_succ, List.map_append, List.map_singleton,
      Nat.mod_self]
    congr 1
    rw [show (List.range names.length).map
          (fun j => names.getD (j % names.length) "")
        = (List.range names.length).map (fun j => names.getD j "") from
      List.map_congr_left (fun j hj => by
        rw [Nat.mod_eq_of_lt (List.mem_range.mp hj)])]
    exact map_getD_range names

/-- Witness for C7 on the two-doctor rotation of the spec scenario. -/
theorem rotation_cycle_witness :
    (["Dr1", "Dr2"] : List String) ≠ [] ∧
    (DoctorRotation.init ["Dr1", "Dr2"]
        = .ok { doctor_names := ["Dr1", "Dr2"], current := 0 } ∧
    (({ doctor_names := ["Dr1", "Dr2"], current := 0 } :
        DoctorRotation).run 2).1 = ["Dr1", "Dr2"] ∧
    (({ doctor_names := ["Dr1", "Dr2"], current := 0 } :
        DoctorRotation).run 3).1 = ["Dr1", "Dr2", "Dr1"]) := by
  refine ⟨by decide, ?_⟩
  have := rotation_cycle ["Dr1", "Dr2"] (by decide)
  simpa using this

/-! ### Compare branch and unbounded FIFO -/

/-- C9: the compare interaction returns the whole coordinator state, the
priority heap included, exactly as it was — it renders from copies — and it
reports nothing exactly when no patient is waiting. -/
theorem compare_no_mutation (st : CoordState) :
    (compareBranch st).2 = st ∧
    (compareBranch st).2.pq.heap = st.pq.heap ∧
    ((compareBranch st).1 = none ↔ st.pq.heap = []) := by
  by_cases h : st.pq.heap.map (·.patient) = []
  · simp only [compareBranch, if_pos h]
    refine ⟨trivial, trivial, ?_⟩
    simp only [List.map_eq_nil_iff] at h
    simp [h]
  · simp only [compareBranch, if_neg h]
    refine ⟨trivial, trivial, ?_⟩
    simp only [List.map_eq_nil_iff] at h
    simp [h]

theorem foldl_arrive_unbounded (l : List Patient) :
    ∀ f : FCFSTriageSystem, f.capacity = none →
      (l.foldl (fun f p => (f.arrive p).2) f).queue = f.queue ++ l ∧
      (l.foldl (fun f p => (f.arrive p).2) f).capacity = none := by
  induction l with
  | nil => intro f h; simp [h]
  | cons p ps ih =>
    intro f h
    simp only [List.foldl_cons]
    have harr : (f.arrive p).2
        = { f with queue := f.queue ++ [p], size := f.size + 1 } := by
      simp [FCFSTriageSystem.arrive, FCFSTriageSystem.is_full, h]
    rw [harr]
    obtain ⟨h1, h2⟩ := ih { f with queue := f.queue ++ [p], size := f.size + 1 }
      (by simp [h])
    refine ⟨?_, h2⟩
    rw [h1]
    simp

/-- C10: a `FCFSTriageSystem` constructed without a capacity is never full
and every arrival succeeds by appending at the rear; consequently the
transient FIFO list built by the compare interaction holds the complete
snapshot of waiting patients in arrival order. -/
theorem unbounded_fifo :
    (∀ s : FCFSTriageSystem, s.capacity = none →
      s.is_full = false ∧
      ∀ p : Patient, s.arrive p
        = (true, { s with queue := s.queue ++ [p], size := s.size + 1 })) ∧
    (∀ st : CoordState, st.pq.heap ≠ [] →
      (compareBranch st).1
        = some (sortByArrival (st.pq.heap.map (·.patient)),
                (popAll st.pq.heap).map (·.patient))) := by
  constructor
  · intro s h
    have hf : s.is_full = false := by
      simp [FCFSTriageSystem.is_full, h]
    exact ⟨hf, fun p => by simp [FCFSTriageSystem.arrive, hf]⟩
  · intro st h
    have hne : ¬ st.pq.heap.map (·.patient) = [] := by
      simpa [List.map_eq_nil_iff] using h
    simp only [compareBranch, if_neg hne]
    have hq := (foldl_arrive_unbounded
      (sortByArrival (st.pq.heap.map (·.patient)))
      (FCFSTriageSystem.init none) rfl).1
    rw [show (FCFSTriageSystem.init none).queue = [] from rfl,
      List.nil_append] at hq
    rw [show ∀ f : FCFSTriageSystem, f.traverse_forward = f.queue
        from fun _ => rfl, hq]

/-- Witness for C10: the unbounded list always accepts, and the compare
rendering on the three-patient scenario state lists all three patients by
arrival. -/
theorem unbounded_fifo_witness :
    ((FCFSTriageSystem.init none).capacity = none ∧
      (FCFSTriageSystem.init none).is_full = false ∧
      ∀ p : Patient, (FCFSTriageSystem.init none).arrive p
        = (true, { FCFSTriageSystem.init none with
            queue := (FCFSTriageSystem.init none).queue ++ [p],
            size := (FCFSTriageSystem.init none).size + 1 })) ∧
    (stEx.pq.heap ≠ [] ∧
      (compareBranch stEx).1
        = some (sortByArrival (stEx.pq.heap.map (·.patient)),
                (popAll stEx.pq.heap).map (·.patient))) := by
  refine ⟨⟨rfl, ?_, ?_⟩, ⟨by decide, ?_⟩⟩
  · exact ((unbounded_fifo.1 (FCFSTriageSystem.init none) rfl)).1
  · exact ((unbounded_fifo.1 (FCFSTriageSystem.init none) rfl)).2
  · exact unbounded_fifo.2 stEx (by decide)

/-! ### BST operation sequences -/

theorem insIds_ins (p : Patient) (ops : List BstOp) :
    insIds (.ins p :: ops) = p.id :: insIds ops := by
  simp [insIds]

theorem insIds_del (pid : Int) (ops : List BstOp) :
    insIds (.del pid :: ops) = insIds ops := by
  simp [insIds]

theorem mem_ids_insert {t : PTree} {p : Patient} {i : Int}
    (h : i ∈ (t.insert p).inorder.map (fun x => x.id)) :
    i = p.id ∨ i ∈ t.inorder.map (fun x => x.id) := by
  obtain ⟨x, hx, rfl⟩ := List.mem_map.mp h
  rcases mem_insert_inorder.mp hx with rfl | hx'
  · exact Or.inl rfl
  · exact Or.inr (List.mem_map.mpr ⟨x, hx', rfl⟩)

theorem mem_ids_delete {t : PTree} {pid i : Int} (hwf : t.Wf)
    (h : i ∈ (t.delete pid).inorder.map (fun x => x.id)) :
    i ∈ t.inorder.map (fun x => x.id) := by
  obtain ⟨x, hx, rfl⟩ := List.mem_map.mp h
  rw [delete_inorder t pid hwf] at hx
  exact List.mem_map.mpr ⟨x, (List.mem_filter.mp hx).1, rfl⟩

theorem runBst_wf (ops : List BstOp) :
    ∀ t : PatientBST, t.root.Wf → (insIds ops).Nodup →
      (∀ i ∈ insIds ops, i ∉ t.root.inorder.map (fun p => p.id)) →
      (runBst t ops).root.Wf ∧
      (∀ i ∈ (runBst t ops).root.inorder.map (fun p => p.id),
        i ∈ t.root.inorder.map (fun p => p.id) ∨ i ∈ insIds ops) := by
  induction ops with
  | nil => intro t hwf _ _; exact ⟨hwf, fun i hi => Or.inl hi⟩
  | cons op rest ih =>
    intro t hwf hnd hfresh
    cases op with
    | ins p =>
      rw [insIds_ins] at hnd hfresh
      rw [List.nodup_cons] at hnd
      have hipfresh : ∀ x ∈ t.root.inorder, x.id ≠ p.id := fun x hx hcon =>
        hfresh p.id (List.mem_cons_self _ _) (List.mem_map.mpr ⟨x, hx, hcon⟩)
      have hwf' : (t.insert p).root.Wf := Wf_insert hwf hipfresh
      have hfresh' : ∀ i ∈ insIds rest,
          i ∉ (t.insert p).root.inorder.map (fun x => x.id) := by
        intro i hi hcon
        rcases mem_ids_insert hcon with rfl | hcon'
        · exact hnd.1 hi
        · exact hfresh i (List.mem_cons_of_mem _ hi) hcon'
      obtain ⟨hW, hS⟩ := ih (t.insert p) hwf' hnd.2 hfresh'
      refine ⟨hW, ?_⟩
      intro i hi
      rcases hS i hi with hi' | hi'
      · rcases mem_ids_insert hi' with rfl | hi''
        · exact Or.inr (List.mem_cons_self _ _)
        · exact Or.inl hi''
      · exact Or.inr (List.mem_cons_of_mem _ hi')
    | del pid =>
      rw [insIds_del] at hnd hfresh
      have hwf' : (t.delete_by_id pid).root.Wf := Wf_delete _ pid hwf
      have hfresh' : ∀ i ∈ insIds rest,
          i ∉ (t.delete_by_id pid).root.inorder.map (fun x => x.id) := by
        intro i hi hcon
        exact hfresh i hi (mem_ids_delete hwf hcon)
      obtain ⟨hW, hS⟩ := ih (t.delete_by_id pid) hwf' hnd hfresh'
      refine ⟨hW, ?_⟩
      intro i hi
      rcases hS i hi with hi' | hi'
      · exact Or.inl (mem_ids_delete hwf hi')
      · exact Or.inr hi'

/-- C8: for every sequence of insertions with distinct identifiers and any
interleaved deletions, the inorder traversal of the BST lists the waiting
identifiers in strictly ascending order. -/
theorem bst_inorder_ascending (ops : List BstOp)
    (h : (insIds ops).Nodup) :
    List.Pairwise (fun a b : Int => a < b)
      ((runBst PatientBST.init ops).inorder.map (fun p => p.id)) := by
  have hwf := (runBst_wf ops PatientBST.init trivial h
    (by intro i hi; simp [PatientBST.init, PTree.inorder])).1
  exact List.pairwise_map.mpr (inorder_sorted hwf)

/-- Witness for C8: three out-of-order insertions and one deletion. -/
theorem bst_inorder_ascending_witness :
    (insIds [.ins ⟨2, "B", 5, 2⟩, .ins ⟨1, "A", 3, 1⟩, .ins ⟨3, "C", 3, 3⟩,
        .del 2]).Nodup ∧
    List.Pairwise (fun a b : Int => a < b)
      ((runBst PatientBST.init
        [.ins ⟨2, "B", 5, 2⟩, .ins ⟨1, "A", 3, 1⟩, .ins ⟨3, "C", 3, 3⟩,
          .del 2]).inorder.map (fun p => p.id)) :=
  ⟨by decide, bst_inorder_ascending _ (by decide)⟩

/-! ### Update reporting -/

/-- C6: after any session with distinct added identifiers, the priority
structure's update reports success exactly when the identifier is in the
heap, the BST's update reports success exactly when the identifier is in the
tree, and the menu reports success exactly when either structure found it;
in particular, updating the nonexistent identifier 99 in the three-patient
scenario state returns not-found from both structures. -/
theorem update_severity_reports (rot : DoctorRotation) (cap : Int)
    (ops : List Op) (h : (addIds ops).Nodup) (pid ns : Int) :
    ((((runOps (initCoord rot cap) ops).pq.update_severity pid ns).1 = true
        ↔ pid ∈ (runOps (initCoord rot cap) ops).pq.heap.map
            (fun e => e.patient.id)) ∧
    ((((runOps (initCoord rot cap) ops).bst.update_severity pid ns).1 = true
        ↔ pid ∈ (runOps (initCoord rot cap) ops).bst.inorder.map
            (fun p => p.id))) ∧
    (updateReportsSuccess (runOps (initCoord rot cap) ops) pid ns = true
        ↔ (pid ∈ (runOps (initCoord rot cap) ops).pq.heap.map
              (fun e => e.patient.id)
            ∨ pid ∈ (runOps (initCoord rot cap) ops).bst.inorder.map
              (fun p => p.id)))) ∧
    ((stEx.pq.update_severity 99 4).1 = false ∧
      (stEx.bst.update_severity 99 4).1 = false ∧
      updateReportsSuccess stEx 99 4 = false) := by
  have hinv := runOps_inv ops _ (inv_init rot cap) h
    (by intro i hi; simp [initCoord, PriorityTriageSystem.init])
  obtain ⟨hwf, _, _⟩ := hinv
  have h1 : (((runOps (initCoord rot cap) ops).pq.update_severity pid ns).1
        = true
      ↔ pid ∈ (runOps (initCoord rot cap) ops).pq.heap.map
          (fun e => e.patient.id)) := by
    rw [show ((runOps (initCoord rot cap) ops).pq.update_severity pid ns).1
          = (updateEntry pid ns (runOps (initCoord rot cap) ops).pq.heap).1
        from rfl, updateEntry_fst]
    constructor
    · rintro ⟨e, he, hei⟩
      exact List.mem_map.mpr ⟨e, he, hei⟩
    · intro hm
      obtain ⟨e, he, hei⟩ := List.mem_map.mp hm
      exact ⟨e, he, hei⟩
  have h2 : (((runOps (initCoord rot cap) ops).bst.update_severity pid ns).1
        = true
      ↔ pid ∈ (runOps (initCoord rot cap) ops).bst.inorder.map
          (fun p => p.id)) := by
    rw [show ((runOps (initCoord rot cap) ops).bst.update_severity pid ns).1
          = ((runOps (initCoord rot cap) ops).bst.root.update_severity
              pid ns).1
        from rfl, update_fst _ pid ns hwf]
    constructor
    · rintro ⟨x, hx, hxi⟩
      exact List.mem_map.mpr ⟨x, hx, hxi⟩
    · intro hm
      obtain ⟨x, hx, hxi⟩ := List.mem_map.mp hm
      exact ⟨x, hx, hxi⟩
  refine ⟨⟨h1, h2, ?_⟩, by decide⟩
  rw [show updateReportsSuccess (runOps (initCoord rot cap) ops) pid ns
        = (((runOps (initCoord rot cap) ops).pq.update_severity pid ns).1
            || ((runOps (initCoord rot cap) ops).bst.update_severity
                pid ns).1)
      from rfl, Bool.or_eq_true, h1, h2]

/-- Witness for C6 instantiated at the scenario session and identifier 99. -/
theorem update_severity_reports_witness :
    (addIds opsEx).Nodup ∧
    ((((runOps (initCoord rotEx 5) opsEx).pq.update_severity 99 4).1 = true
        ↔ 99 ∈ (runOps (initCoord rotEx 5) opsEx).pq.heap.map
            (fun e => e.patient.id)) ∧
    ((((runOps (initCoord rotEx 5) opsEx).bst.update_severity 99 4).1 = true
        ↔ 99 ∈ (runOps (initCoord rotEx 5) opsEx).bst.inorder.map
            (fun p => p.id))) ∧
    (updateReportsSuccess (runOps (initCoord rotEx 5) opsEx) 99 4 = true
        ↔ (99 ∈ (runOps (initCoord rotEx 5) opsEx).pq.heap.map
              (fun e => e.patient.id)
            ∨ 99 ∈ (runOps (initCoord rotEx 5) opsEx).bst.inorder.map
              (fun p => p.id)))) :=
  ⟨by decide, (update_severity_reports rotEx 5 opsEx (by decide) 99 4).1⟩

/-! ### Serve effects -/

/-- C5 counterexample: in a session with a capacity-1 ledger, the second
serve dequeues a waiting patient but the ledger rejects the history entry,
so its size stays 1 instead of growing by one. -/
theorem serve_full_ledger_counterexample :
    stFullHistory.pq.heap ≠ [] ∧
    stFullHistory.history.size = 1 ∧
    stFullHistory.history.capacity = 1 ∧
    (runOp stFullHistory .serve).pq.heap = [] ∧
    (runOp stFullHistory .serve).history.size = 1 ∧
    (runOp stFullHistory .serve).history = stFullHistory.history := by
  decide

/-- C5 amended: a serve on a non-empty priority structure pops the least
entry, removes the served identifier from the BST and advances the rotation
cursor by exactly one step; it pushes the formatted history entry and grows
the ledger by one only when the ledger is not full — on a full ledger the
push is rejected and the ledger is unchanged. -/
theorem serve_effects (rot : DoctorRotation) (cap : Int) (ops : List Op)
    (h : (addIds ops).Nodup)
    (hne : (runOps (initCoord rot cap) ops).pq.heap ≠ []) :
    ∃ e rest,
      popMin (runOps (initCoord rot cap) ops).pq.heap = some (e, rest) ∧
      (runOp (runOps (initCoord rot cap) ops) .serve).pq.heap = rest ∧
      e.patient.id ∉ (runOp (runOps (initCoord rot cap) ops)
          .serve).bst.inorder.map (fun p => p.id) ∧
      (runOp (runOps (initCoord rot cap) ops) .serve).rotation.doctor_names
        = (runOps (initCoord rot cap) ops).rotation.doctor_names ∧
      (runOp (runOps (initCoord rot cap) ops) .serve).rotation.current
        = ((runOps (initCoord rot cap) ops).rotation.current + 1)
            % (runOps (initCoord rot cap) ops).rotation.doctor_names.length ∧
      ((runOps (initCoord rot cap) ops).history.is_full = false →
        (runOp (runOps (initCoord rot cap) ops) .serve).history.size
          = (runOps (initCoord rot cap) ops).history.size + 1 ∧
        (runOp (runOps (initCoord rot cap) ops) .serve).history.stack
          = serviceRecord e.patient
              ((runOps (initCoord rot cap) ops).rotation.next_doctor.1)
            :: (runOps (initCoord rot cap) ops).history.stack) ∧
      ((runOps (initCoord rot cap) ops).history.is_full = true →
        (runOp (runOps (initCoord rot cap) ops) .serve).history
          = (runOps (initCoord rot cap) ops).history) := by
  have hinv := runOps_inv ops _ (inv_init rot cap) h
    (by intro i hi; simp [initCoord, PriorityTriageSystem.init])
  obtain ⟨hwf, _, _⟩ := hinv
  cases hm : popMin (runOps (initCoord rot cap) ops).pq.heap with
  | none => exact absurd (popMin_eq_none.mp hm) hne
  | some pr =>
    obtain ⟨e, rest⟩ := pr
    refine ⟨e, rest, rfl, ?_⟩
    have hred : runOp (runOps (initCoord rot cap) ops) .serve
        = { runOps (initCoord rot cap) ops with
            pq := { (runOps (initCoord rot cap) ops).pq with heap := rest }
            rotation :=
              ((runOps (initCoord rot cap) ops).rotation.next_doctor).2
            history := ((runOps (initCoord rot cap) ops).history.push
              (serviceRecord e.patient
                ((runOps (initCoord rot cap) ops).rotation.next_doctor).1)).1
            bst := (runOps (initCoord rot cap) ops).bst.delete_by_id
              e.patient.id } := by
      simp only [runOp, PriorityTriageSystem.serve_next, hm]
    rw [hred]
    refine ⟨rfl, ?_, rfl, rfl, ?_, ?_⟩
    · intro hcon
      obtain ⟨x, hx, hxi⟩ := List.mem_map.mp hcon
      rw [show (((runOps (initCoord rot cap) ops).bst.delete_by_id
            e.patient.id)).inorder
          = ((runOps (initCoord rot cap) ops).bst.root.delete
              e.patient.id).inorder from rfl,
        delete_inorder _ _ hwf] at hx
      have := (List.mem_filter.mp hx).2
      rw [hxi] at this
      simp at this
    · intro hfree
      constructor
      · show ((runOps (initCoord rot cap) ops).history.push _).1.size = _
        rw [ServedHistoryStack.push, if_neg (by rw [hfree]; exact fun hc => nomatch hc)]
      · show ((runOps (initCoord rot cap) ops).history.push _).1.stack = _
        rw [ServedHistoryStack.push, if_neg (by rw [hfree]; exact fun hc => nomatch hc)]
    · intro hfull
      show ((runOps (initCoord rot cap) ops).history.push _).1 = _
      rw [ServedHistoryStack.push, if_pos (by rw [hfull])]

/-- Witness for the amended C5 at the capacity-1 ledger session. -/
theorem serve_effects_witness :
    (addIds opsFullHistory).Nodup ∧
    (runOps (initCoord rotEx 1) opsFullHistory).pq.heap ≠ [] ∧
    (∃ e rest,
      popMin (runOps (initCoord rotEx 1) opsFullHistory).pq.heap
        = some (e, rest) ∧
      (runOp (runOps (initCoord rotEx 1) opsFullHistory) .serve).pq.heap
        = rest ∧
      e.patient.id ∉ (runOp (runOps (initCoord rotEx 1) opsFullHistory)
          .serve).bst.inorder.map (fun p => p.id) ∧
      (runOp (runOps (initCoord rotEx 1) opsFullHistory)
          .serve).rotation.doctor_names
        = (runOps (initCoord rotEx 1) opsFullHistory).rotation.doctor_names ∧
      (runOp (runOps (initCoord rotEx 1) opsFullHistory)
          .serve).rotation.current
        = ((runOps (initCoord rotEx 1) opsFullHistory).rotation.current + 1)
            % (runOps (initCoord rotEx 1)
                opsFullHistory).rotation.doctor_names.length ∧
      ((runOps (initCoord rotEx 1) opsFullHistory).history.is_full = false →
        (runOp (runOps (initCoord rotEx 1) opsFullHistory)
            .serve).history.size
          = (runOps (initCoord rotEx 1) opsFullHistory).history.size + 1 ∧
        (runOp (runOps (initCoord rotEx 1) opsFullHistory)
            .serve).history.stack
          = serviceRecord e.patient
              ((runOps (initCoord rotEx 1)
                opsFullHistory).rotation.next_doctor.1)
            :: (runOps (initCoord rotEx 1) opsFullHistory).history.stack) ∧
      ((runOps (initCoord rotEx 1) opsFullHistory).history.is_full = true →
        (runOp (runOps (initCoord rotEx 1) opsFullHistory) .serve).history
          = (runOps (initCoord rotEx 1) opsFullHistory).history)) :=
  ⟨by decide, by decide,
   serve_effects rotEx 1 opsFullHistory (by decide) (by decide)⟩
